import Mathlib

/-!
Verification of the Pascal-row generator `pascal_row_impl` from
`src/code/pyo3_module/src/lib.rs`.

The Rust function is:

  fn pascal_row_impl(n: usize) -> Vec<u32> {
      let mut row : Vec<u32> = Vec::with_capacity(n);
      row.resize(n, 0);       // Allocate an array of 0s
      row[0] = 1;
      let mut last : u32;
      for i in 1..n {
          let mut curr : u32 = 1;
          for j in 1..(i + 1) {
              last = curr;
              curr = row[j];
              row[j] = last + curr;
          }
      }
      row
  }

The embedding models `u32` values as natural numbers below `2^32`, with
wrapping addition written as addition followed by reduction modulo `2^32`
(release-mode Rust `u32` addition wraps silently).  Vector indexing is
fallible: an out-of-bounds index panics in Rust, which is modelled by
returning `none`.  The loops `for i in 1..n` and `for j in 1..(i + 1)`
iterate over the lists `List.range' 1 (n - 1)` and `List.range' 1 i`,
which are exactly the values taken by the Rust ranges.
-/

/-- Modulus of the `u32` type: all arithmetic in the source wraps modulo `2^32`. -/
def U32 : Nat := 4294967296

/-- One run of the inner loop body over the remaining loop indices `js`:
`last = curr; curr = row[j]; row[j] = last + curr;` so the buffer entry at `j`
becomes the (wrapping) sum of the carried value and the old entry, and the old
entry is carried into the next iteration.  A panic (out-of-bounds `row[j]`)
is modelled as `none`. -/
def innerLoop (row : List Nat) (curr : Nat) (js : List Nat) : Option (List Nat) :=
  match js with
  | [] => some row
  | j :: rest =>
    match row[j]? with
    | none => none
    | some c => innerLoop (row.set j ((curr + c) % U32)) c rest

/-- The outer loop over the remaining generation indices `gens`
(`for i in 1..n`), with `curr` reset to `1` at each generation and the inner
loop running over `j = 1, ..., i`, i.e. over `List.range' 1 i`. -/
def outerLoop (row : List Nat) (gens : List Nat) : Option (List Nat) :=
  match gens with
  | [] => some row
  | i :: rest =>
    match innerLoop row 1 (List.range' 1 i) with
    | none => none
    | some row2 => outerLoop row2 rest

/-- The embedding of `pascal_row_impl`.  The buffer starts as `n` zeros;
the unguarded statement `row[0] = 1` is a bounds-checked write (it panics,
i.e. returns `none`, when the buffer is empty); then the outer loop runs over
`i = 1, ..., n - 1`. -/
def pascal_row_impl (n : Nat) : Option (List Nat) :=
  let row := List.replicate n 0
  if 0 < row.length then
    outerLoop (row.set 0 1) (List.range' 1 (n - 1))
  else none

/-- The value a successful call `pascal_row_impl n` places at position `i`
(`none` when the call panics or `i` is out of range). -/
def getEntry (n i : Nat) : Option Nat :=
  match pascal_row_impl n with
  | none => none
  | some row => row[i]?

/-- The binomial coefficient reduced to the `u32` width: the mathematical
value of a buffer entry under wrapping arithmetic. -/
def pascalMod (i k : Nat) : Nat := Nat.choose i k % U32

/-- The buffer contents immediately before the inner loop of generation `i`
processes position `j`: generations `1, ..., i - 1` have completed and,
within generation `i`, positions `1, ..., j - 1` have been processed.  This
is the truncation of `pascal_row_impl n` at that point of its execution. -/
def stateBefore (n i j : Nat) : Option (List Nat) :=
  let row := List.replicate n 0
  if 0 < row.length then
    match outerLoop (row.set 0 1) (List.range' 1 (i - 1)) with
    | none => none
    | some row2 => innerLoop row2 1 (List.range' 1 (j - 1))
  else none

/-! ### Arithmetic facts about `pascalMod` -/

theorem pascalMod_zero (i : Nat) : pascalMod i 0 = 1 := by
  simp [pascalMod, U32]

theorem pascalMod_high {i k : Nat} (h : i < k) : pascalMod i k = 0 := by
  simp [pascalMod, Nat.choose_eq_zero_of_lt h]

theorem pascalMod_rec : ∀ i j : Nat, 1 ≤ i → 1 ≤ j →
    (pascalMod (i - 1) (j - 1) + pascalMod (i - 1) j) % U32 = pascalMod i j
  | i + 1, j + 1, _, _ => by
    show (pascalMod i j + pascalMod i (j + 1)) % U32 = pascalMod (i + 1) (j + 1)
    simp only [pascalMod, Nat.choose_succ_succ']
    exact (Nat.add_mod _ _ _).symm

/-! ### Loop invariants -/

/-- Inner-loop invariant.  Running the inner loop of generation `i` over the
positions `j, ..., j + len - 1`, starting from a buffer whose positions below
`j` already hold generation `i` values and whose positions from `j` on still
hold generation `i - 1` values, with the carried value being generation
`i - 1`'s entry at `j - 1`, succeeds and moves the boundary to `j + len`. -/
theorem innerLoop_partial (i : Nat) (hi : 1 ≤ i) :
    ∀ (len j : Nat) (row : List Nat),
      1 ≤ j →
      j + len ≤ i + 1 →
      i < row.length →
      (∀ k, k < j → row[k]? = some (pascalMod i k)) →
      (∀ k, j ≤ k → k < row.length → row[k]? = some (pascalMod (i - 1) k)) →
      ∃ row2,
        innerLoop row (pascalMod (i - 1) (j - 1)) (List.range' j len) = some row2 ∧
        row2.length = row.length ∧
        (∀ k, k < j + len → row2[k]? = some (pascalMod i k)) ∧
        (∀ k, j + len ≤ k → k < row.length → row2[k]? = some (pascalMod (i - 1) k)) := by
  intro len
  induction len with
  | zero =>
    intro j row hj hji hilen hlow hhigh
    exact ⟨row, rfl, rfl, fun k hk => hlow k (by omega),
      fun k hk hk2 => hhigh k (by omega) hk2⟩
  | succ len ih =>
    intro j row hj hji hilen hlow hhigh
    have hjlen : j < row.length := by omega
    have hjval : row[j]? = some (pascalMod (i - 1) j) := hhigh j le_rfl hjlen
    rw [List.range'_succ]
    simp only [innerLoop, hjval]
    rw [pascalMod_rec i j hi hj]
    obtain ⟨row2, heq, hlen2, h1, h2⟩ :=
      ih (j + 1) (row.set j (pascalMod i j)) (by omega) (by omega)
        (by rw [List.length_set]; exact hilen)
        (by
          intro k hk
          rcases Nat.lt_or_ge k j with hkj | hkj
          · rw [List.getElem?_set_ne (by omega)]
            exact hlow k hkj
          · have hkj2 : k = j := by omega
            subst hkj2
            rw [List.getElem?_set_self hjlen])
        (by
          intro k hk hk2
          rw [List.getElem?_set_ne (by omega)]
          exact hhigh k (by omega) (by simpa using hk2))
    refine ⟨row2, heq, by simpa using hlen2, fun k hk => h1 k (by omega),
      fun k hk hk2 => h2 k (by omega) (by simpa using hk2)⟩

/-- Outer-loop invariant.  Running the outer loop over generations
`i0, ..., i0 + len - 1` on a buffer holding generation `i0 - 1` succeeds and
yields the buffer of generation `i0 - 1 + len`. -/
theorem outerLoop_inv :
    ∀ (len i0 : Nat) (row : List Nat),
      1 ≤ i0 →
      i0 + len ≤ row.length →
      (∀ k, k < row.length → row[k]? = some (pascalMod (i0 - 1) k)) →
      ∃ row2,
        outerLoop row (List.range' i0 len) = some row2 ∧
        row2.length = row.length ∧
        (∀ k, k < row.length → row2[k]? = some (pascalMod (i0 - 1 + len) k)) := by
  intro len
  induction len with
  | zero =>
    intro i0 row h1 h2 hinv
    exact ⟨row, rfl, rfl, by simpa using hinv⟩
  | succ len ih =>
    intro i0 row h1 h2 hinv
    have hi0len : i0 < row.length := by omega
    obtain ⟨rowA, hAeq, hAlen, hA1, hA2⟩ :=
      innerLoop_partial i0 h1 i0 1 row le_rfl (by omega) hi0len
        (by
          intro k hk
          have hk0 : k = 0 := by omega
          subst hk0
          rw [hinv 0 (by omega), pascalMod_zero, pascalMod_zero])
        (fun k _ hk2 => hinv k hk2)
    simp only [Nat.sub_self, pascalMod_zero] at hAeq
    have hAfull : ∀ k, k < rowA.length → rowA[k]? = some (pascalMod i0 k) := by
      intro k hk
      rcases Nat.lt_or_ge k (1 + i0) with h | h
      · exact hA1 k h
      · rw [hA2 k (by omega) (by omega), pascalMod_high (show i0 - 1 < k by omega),
          pascalMod_high (show i0 < k by omega)]
    obtain ⟨row2, h2eq, h2len, h2inv⟩ :=
      ih (i0 + 1) rowA (by omega) (by omega) hAfull
    rw [List.range'_succ]
    simp only [outerLoop, hAeq]
    refine ⟨row2, h2eq, h2len.trans hAlen, fun k hk => ?_⟩
    have := h2inv k (by omega)
    have harith : i0 + 1 - 1 + len = i0 - 1 + (len + 1) := by omega
    rwa [harith] at this

/-- Full specification of a successful call: for `n ≥ 1` the call succeeds
and every buffer entry is the corresponding binomial coefficient of row
`n - 1`, reduced modulo `2^32`. -/
theorem pascal_row_impl_spec (n : Nat) (hn : 1 ≤ n) :
    ∃ row, pascal_row_impl n = some row ∧ row.length = n ∧
      ∀ k, k < n → row[k]? = some (pascalMod (n - 1) k) := by
  have h0 : pascal_row_impl n =
      if 0 < (List.replicate n (0:Nat)).length then
        outerLoop ((List.replicate n (0:Nat)).set 0 1) (List.range' 1 (n - 1))
      else none := rfl
  have hinit : ∀ k, k < ((List.replicate n (0:Nat)).set 0 1).length →
      ((List.replicate n (0:Nat)).set 0 1)[k]? = some (pascalMod 0 k) := by
    intro k hk
    have hklen : k < n := by simpa using hk
    rcases Nat.eq_zero_or_pos k with hk0 | hkpos
    · subst hk0
      rw [List.getElem?_set_self (by simpa using hn), pascalMod_zero]
    · rw [List.getElem?_set_ne (by omega), List.getElem?_replicate_of_lt hklen,
        pascalMod_high (by omega)]
  obtain ⟨row2, heq, hlen, hinv⟩ :=
    outerLoop_inv (n - 1) 1 ((List.replicate n (0:Nat)).set 0 1) le_rfl
      (by simp; omega) hinit
  refine ⟨row2, ?_, by simpa using hlen, fun k hk => ?_⟩
  · rw [h0, List.length_replicate, if_pos (by omega)]
    exact heq
  · have := hinv k (by simp; omega)
    simpa using this

/-- Entries of a successful call, through `getEntry`. -/
theorem getEntry_spec (n : Nat) (hn : 1 ≤ n) :
    ∀ k, k < n → getEntry n k = some (pascalMod (n - 1) k) := by
  obtain ⟨row, heq, hlen, hinv⟩ := pascal_row_impl_spec n hn
  intro k hk
  simp only [getEntry, heq]
  exact hinv k hk

/-- Mid-execution state of the buffer: generations `1, ..., i - 1` done and
positions `1, ..., j - 1` of generation `i` done. -/
theorem stateBefore_spec (n i j : Nat) (hn : 2 ≤ n) (hj : 1 ≤ j) (hji : j ≤ i)
    (hi : i ≤ n - 1) :
    ∃ row, stateBefore n i j = some row ∧ row.length = n ∧
      (∀ k, k < j → row[k]? = some (pascalMod i k)) ∧
      (∀ k, j ≤ k → k < n → row[k]? = some (pascalMod (i - 1) k)) := by
  have h0 : stateBefore n i j =
      if 0 < (List.replicate n (0:Nat)).length then
        match outerLoop ((List.replicate n (0:Nat)).set 0 1)
            (List.range' 1 (i - 1)) with
        | none => none
        | some row2 => innerLoop row2 1 (List.range' 1 (j - 1))
      else none := rfl
  have hinit : ∀ k, k < ((List.replicate n (0:Nat)).set 0 1).length →
      ((List.replicate n (0:Nat)).set 0 1)[k]? = some (pascalMod 0 k) := by
    intro k hk
    have hklen : k < n := by simpa using hk
    rcases Nat.eq_zero_or_pos k with hk0 | hkpos
    · subst hk0
      rw [List.getElem?_set_self (by simp; omega), pascalMod_zero]
    · rw [List.getElem?_set_ne (by omega), List.getElem?_replicate_of_lt hklen,
        pascalMod_high (by omega)]
  obtain ⟨rowA, hAeq, hAlen, hAinv0⟩ :=
    outerLoop_inv (i - 1) 1 ((List.replicate n (0:Nat)).set 0 1) le_rfl
      (by simp; omega) hinit
  have hAn : rowA.length = n := by simpa using hAlen
  have hAinv : ∀ k, k < rowA.length → rowA[k]? = some (pascalMod (i - 1) k) := by
    intro k hk
    have := hAinv0 k (by simp; omega)
    simpa using this
  obtain ⟨rowB, hBeq, hBlen, hB1, hB2⟩ :=
    innerLoop_partial i (by omega) (j - 1) 1 rowA le_rfl (by omega) (by omega)
      (by
        intro k hk
        have hk0 : k = 0 := by omega
        subst hk0
        rw [hAinv 0 (by omega), pascalMod_zero, pascalMod_zero])
      (fun k _ hk2 => hAinv k hk2)
  simp only [Nat.sub_self, pascalMod_zero] at hBeq
  refine ⟨rowB, ?_, by omega, fun k hk => hB1 k (by omega),
    fun k hk hk2 => hB2 k (by omega) (by omega)⟩
  rw [h0, List.length_replicate, if_pos (by omega)]
  simp only [hAeq]
  exact hBeq

/-! ### Claims -/

/-- C1: for every n >= 1 such that every binomial coefficient C(n-1, i) is
representable in 32 bits, the call succeeds and the value at each position i
in 0..n-1 equals the binomial coefficient C(n-1, i). -/
theorem C1_binomial_values (n : Nat) (hn : 1 ≤ n)
    (hrep : ∀ i, i < n → Nat.choose (n - 1) i < U32) :
    ∃ row, pascal_row_impl n = some row ∧
      ∀ i, i < n → row[i]? = some (Nat.choose (n - 1) i) := by
  obtain ⟨row, heq, hlen, hinv⟩ := pascal_row_impl_spec n hn
  refine ⟨row, heq, fun i hi => ?_⟩
  rw [hinv i hi, pascalMod, Nat.mod_eq_of_lt (hrep i hi)]

theorem C1_binomial_values_witness :
    ∃ row, pascal_row_impl 5 = some row ∧
      ∀ i, i < 5 → row[i]? = some (Nat.choose 4 i) :=
  C1_binomial_values 5 (by decide) (by decide)

/-- C2: the claim says generate_row(0) returns the empty sequence without
ever indexing into the buffer; in the code the unconditional statement
`row[0] = 1` indexes into the empty buffer when n = 0, an out-of-bounds
access (a panic), modelled here as `none`. -/
theorem C2_zero_panics : pascal_row_impl 0 = none := rfl

/-- C3: the claim says the core never fails on any non-negative n; in the
code the only failure is the out-of-bounds write `row[0] = 1` at n = 0:
the call fails at n = 0 and succeeds for every n >= 1. -/
theorem C3_totality : pascal_row_impl 0 = none ∧
    ∀ n, 1 ≤ n → (pascal_row_impl n).isSome = true := by
  refine ⟨rfl, fun n hn => ?_⟩
  obtain ⟨row, heq, -, -⟩ := pascal_row_impl_spec n hn
  rw [heq]
  rfl

theorem C3_totality_witness : (pascal_row_impl 7).isSome = true :=
  C3_totality.2 7 (by decide)

/-- C4: loop invariant of the in-place single-buffer update, for n >= 2 and
1 <= j <= i <= n-1: immediately before processing position j in generation i,
position j of the buffer holds the value of row i-1 at index j (in wrapping
u32 arithmetic) and positions 1..j-1 already hold row i's values. -/
theorem C4_loop_invariant (n i j : Nat) (hn : 2 ≤ n) (hj : 1 ≤ j)
    (hji : j ≤ i) (hi : i ≤ n - 1) :
    ∃ row, stateBefore n i j = some row ∧
      row[j]? = some (pascalMod (i - 1) j) ∧
      ∀ k, 1 ≤ k → k < j → row[k]? = some (pascalMod i k) := by
  obtain ⟨row, heq, hlen, h1, h2⟩ := stateBefore_spec n i j hn hj hji hi
  exact ⟨row, heq, h2 j le_rfl (by omega), fun k _ hk => h1 k hk⟩

theorem C4_loop_invariant_witness :
    ∃ row, stateBefore 5 3 2 = some row ∧
      row[2]? = some (pascalMod 2 2) ∧
      ∀ k, 1 ≤ k → k < 2 → row[k]? = some (pascalMod 3 k) :=
  C4_loop_invariant 5 3 2 (by decide) (by decide) (by decide) (by decide)

/-- C5: the claim says the returned sequence has length exactly n for every
n >= 0; in the code the call fails at n = 0 (out-of-bounds write) and for
every n >= 1 it returns a sequence of length exactly n. -/
theorem C5_length : pascal_row_impl 0 = none ∧
    ∀ n, 1 ≤ n → Option.map List.length (pascal_row_impl n) = some n := by
  refine ⟨rfl, fun n hn => ?_⟩
  obtain ⟨row, heq, hlen, -⟩ := pascal_row_impl_spec n hn
  rw [heq, Option.map_some', hlen]

theorem C5_length_witness : Option.map List.length (pascal_row_impl 6) = some 6 :=
  C5_length.2 6 (by decide)

/-- C6: for every n >= 1 the returned sequence is palindromic: the value at
position i equals the value at position n-1-i for every i in 0..n-1. -/
theorem C6_palindrome (n : Nat) (hn : 1 ≤ n) :
    ∀ i, i < n → getEntry n i = getEntry n (n - 1 - i) := by
  intro i hi
  rw [getEntry_spec n hn i hi, getEntry_spec n hn (n - 1 - i) (by omega)]
  have hsymm : pascalMod (n - 1) (n - 1 - i) = pascalMod (n - 1) i := by
    rw [pascalMod, pascalMod, Nat.choose_symm (by omega)]
  rw [hsymm]

theorem C6_palindrome_witness : getEntry 5 1 = getEntry 5 3 :=
  C6_palindrome 5 (by decide) 1 (by decide)

set_option maxRecDepth 40000 in
/-- C7, counterexample: at n = 36 and interior position i = 17 the returned
value is the wrapped coefficient C(35,17) mod 2^32 = 242600354, which is not
the plain sum of the two adjacent entries of generate_row(35): the sum
2203961430 + 2333606220 = C(35,17) = 4537567650 exceeds the u32 width. -/
theorem C7_counterexample :
    getEntry 36 17 = some 242600354 ∧
    getEntry 35 16 = some 2203961430 ∧
    getEntry 35 17 = some 2333606220 ∧
    (242600354 : Nat) ≠ 2203961430 + 2333606220 :=
  ⟨rfl, rfl, rfl, by decide⟩

/-- C7, amended: for every n >= 2 and interior position i in 1..n-2, the
value of generate_row(n) at i equals the sum of the entries of
generate_row(n-1) at positions i-1 and i reduced modulo 2^32, i.e. the sum
taken in the wrapping u32 arithmetic of the implementation. -/
theorem C7_recurrence_wrapping (n i : Nat) (hn : 2 ≤ n) (hi : 1 ≤ i)
    (hin : i ≤ n - 2) :
    ∀ a b, getEntry (n - 1) (i - 1) = some a → getEntry (n - 1) i = some b →
      getEntry n i = some ((a + b) % U32) := by
  intro a b ha hb
  rw [getEntry_spec (n - 1) (by omega) (i - 1) (by omega)] at ha
  rw [getEntry_spec (n - 1) (by omega) i (by omega)] at hb
  have ha2 := Option.some.inj ha
  have hb2 := Option.some.inj hb
  subst ha2
  subst hb2
  rw [getEntry_spec n (by omega) i (by omega)]
  rw [pascalMod_rec (n - 1) i (by omega) hi]

theorem C7_recurrence_wrapping_witness : getEntry 5 2 = some ((3 + 3) % U32) :=
  C7_recurrence_wrapping 5 2 (by decide) (by decide) (by decide) 3 3 rfl rfl

/-- C8: concrete examples: generate_row(1) = [1],
generate_row(5) = [1, 4, 6, 4, 1], generate_row(6) = [1, 5, 10, 10, 5, 1]. -/
theorem C8_examples :
    pascal_row_impl 1 = some [1] ∧
    pascal_row_impl 5 = some [1, 4, 6, 4, 1] ∧
    pascal_row_impl 6 = some [1, 5, 10, 10, 5, 1] :=
  ⟨rfl, rfl, rfl⟩

/-- C9: the claim says accumulation is in 32-bit unsigned arithmetic with
silent wraparound and never an error; in the code every value returned for
n >= 1 is indeed C(n-1, k) reduced modulo 2^32, but at n = 0 the call fails
(out-of-bounds write) rather than returning, contradicting "never an
error". -/
theorem C9_wrapping_semantics : pascal_row_impl 0 = none ∧
    ∀ n, 1 ≤ n → ∀ k, k < n → getEntry n k = some (Nat.choose (n - 1) k % U32) := by
  refine ⟨rfl, fun n hn k hk => ?_⟩
  rw [getEntry_spec n hn k hk]
  rfl

theorem C9_wrapping_semantics_witness :
    getEntry 3 1 = some (Nat.choose 2 1 % U32) :=
  C9_wrapping_semantics.2 3 (by decide) 1 (by decide)

/-- C10: for every n >= 1 with all coefficients of row n-1 representable in
32 bits, every entry of the returned sequence is at least 1: no residual
zero from the zero-initialized buffer appears in the output. -/
theorem C10_entries_positive (n : Nat) (hn : 1 ≤ n)
    (hrep : ∀ i, i < n → Nat.choose (n - 1) i < U32) :
    ∀ i, i < n → ∃ v, getEntry n i = some v ∧ 1 ≤ v := by
  intro i hi
  refine ⟨Nat.choose (n - 1) i, ?_, Nat.choose_pos (by omega)⟩
  rw [getEntry_spec n hn i hi, pascalMod, Nat.mod_eq_of_lt (hrep i hi)]

theorem C10_entries_positive_witness : ∃ v, getEntry 4 2 = some v ∧ 1 ≤ v :=
  C10_entries_positive 4 (by decide) (by decide) 2 (by decide)
